import Mathlib

/-!
# omnitensor-core: verification of the chain data model, stake manager and synchronizer

This file is a shallow embedding of the parts of the omnitensor-core sources
that the checked claims are about:

* src/chain/block.rs        — Block, BlockHeader, Merkle root, Block::validate
* src/chain/transaction.rs  — Transaction, bincode serialization, Transaction::hash
* src/consensus/stake_manager.rs — StakeManager: stake, unstake,
                                   calculate_rewards, distribute_rewards
* src/network/sync.rs       — Synchronizer::sync_with_network peer selection

Conventions of the embedding:

* Bytes are Nat values below 256; byte strings are List Nat.
* Machine integers (u32, u64, u128) are Nat; two's-complement i64 values are
  Int and are reduced mod 2 ^ 64 when serialized.
* SHA3-256 (the sha3 crate's Sha3_256 used by the sources) is implemented
  concretely below (Keccak-f[1600] sponge, rate 136, domain byte 0x06) so that
  hashing is executable; the implementation matches the FIPS 202 test vectors.
* bincode::serialize is embedded with bincode 1.x default (legacy) options:
  fixed-width little-endian integers, u64 length prefixes for Vec, a single
  tag byte 0 / 1 for Option, and a u32 variant index for enums.
* HashMap<Address, Stake> is embedded as an association list with the key in
  the first component; the sources never depend on iteration order in the
  claims considered here (distribute_rewards updates entries pointwise).
* Storage in stake_manager.rs is the MemoryStorage of the crate's own tests:
  reads return what was last written and never fail, so the storage round trip
  is elided and the stake map is carried directly in the manager state.
* Rust f64 arithmetic in calculate_rewards is embedded as exact rational
  arithmetic (ℚ) followed by the f64::round / as u64 conversion
  (round half away from zero, nonnegative here). At every concrete input used
  in the theorems below the actual f64 computation is exact, so the embedding
  agrees with the code there.
-/

namespace OmniTensor

/-! ## SHA3-256 (Keccak-f[1600] sponge, rate 136 bytes, domain suffix 0x06) -/

def MASK64 : Nat := 2 ^ 64 - 1

/-- Rotate a 64-bit lane left by r bits (0 ≤ r < 64). -/
def rotl64 (x r : Nat) : Nat := ((x <<< r) ||| (x >>> (64 - r))) &&& MASK64

/-- Lane lookup in a 25-lane state, flat index x + 5 * y. -/
def laneD (A : List Nat) (i : Nat) : Nat := A.getD i 0

def keccakTheta (A : List Nat) : List Nat :=
  let C := (List.range 5).map (fun x =>
    laneD A x ^^^ laneD A (x + 5) ^^^ laneD A (x + 10) ^^^ laneD A (x + 15) ^^^ laneD A (x + 20))
  let D := (List.range 5).map (fun x =>
    laneD C ((x + 4) % 5) ^^^ rotl64 (laneD C ((x + 1) % 5)) 1)
  (List.range 25).map (fun i => laneD A i ^^^ laneD D (i % 5))

/-- Combined rho and pi steps: entry j of the output is the source lane and
left-rotation amount feeding output position j. -/
def rhoPiTable : List (Nat × Nat) :=
  [(0, 0), (6, 44), (12, 43), (18, 21), (24, 14), (3, 28), (9, 20), (10, 3), (16, 45),
   (22, 61), (1, 1), (7, 6), (13, 25), (19, 8), (20, 18), (4, 27), (5, 36), (11, 10),
   (17, 15), (23, 56), (2, 62), (8, 55), (14, 39), (15, 41), (21, 2)]

def keccakRhoPi (A : List Nat) : List Nat :=
  rhoPiTable.map (fun p => rotl64 (laneD A p.1) p.2)

def keccakChi (B : List Nat) : List Nat :=
  (List.range 25).map (fun i =>
    let x := i % 5
    let y := i / 5
    laneD B i ^^^ ((laneD B ((x + 1) % 5 + 5 * y) ^^^ MASK64) &&& laneD B ((x + 2) % 5 + 5 * y)))

def keccakRC : List Nat :=
  [0x1, 0x8082, 0x800000000000808a, 0x8000000080008000, 0x808b, 0x80000001,
   0x8000000080008081, 0x8000000000008009, 0x8a, 0x88, 0x80008009, 0x8000000a,
   0x8000808b, 0x800000000000008b, 0x8000000000008089, 0x8000000000008003,
   0x8000000000008002, 0x8000000000000080, 0x800a, 0x800000008000000a,
   0x8000000080008081, 0x8000000000008080, 0x80000001, 0x8000000080008008]

def keccakRound (A : List Nat) (rc : Nat) : List Nat :=
  let B := keccakChi (keccakRhoPi (keccakTheta A))
  (laneD B 0 ^^^ rc) :: B.tail

def keccakF (A : List Nat) : List Nat := keccakRC.foldl keccakRound A

def leBytesToNat : List Nat → Nat
  | [] => 0
  | b :: t => b + 256 * leBytesToNat t

def natToLEBytes (w n : Nat) : List Nat := (List.range w).map (fun i => (n >>> (8 * i)) &&& 255)

def absorbBlock (S : List Nat) (block : List Nat) : List Nat :=
  keccakF ((List.range 25).map (fun i =>
    laneD S i ^^^ (if i < 17 then leBytesToNat ((block.drop (8 * i)).take 8) else 0)))

def sha3Pad (len : Nat) : List Nat :=
  let q := 136 - len % 136
  if q = 1 then [0x86] else 0x06 :: (List.replicate (q - 2) 0 ++ [0x80])

/-- Split a byte string into 136-byte rate blocks. The fuel argument (the
length of the list) makes the recursion structural so that the kernel can
evaluate it. -/
def chunks136Go : Nat → List Nat → List (List Nat)
  | 0, _ => []
  | _, [] => []
  | fuel + 1, l => l.take 136 :: chunks136Go fuel (l.drop 136)

def chunks136 (l : List Nat) : List (List Nat) := chunks136Go l.length l

/-- SHA3-256 over a byte string, returning the 32-byte digest.  This is the
hash the sources use through the sha3 crate (sha3::Sha3_256); it matches the
FIPS 202 test vectors, e.g. sha3 [] is a7ffc6f8bf1ed766... -/
def sha3 (msg : List Nat) : List Nat :=
  let padded := msg ++ sha3Pad msg.length
  let S := (chunks136 padded).foldl absorbBlock (List.replicate 25 0)
  natToLEBytes 8 (laneD S 0) ++ natToLEBytes 8 (laneD S 1) ++
  natToLEBytes 8 (laneD S 2) ++ natToLEBytes 8 (laneD S 3)

/-! ## bincode 1.x (legacy default) serialization primitives -/

/-- A hash value: a byte string (32 bytes for every SHA3-256 output). -/
abbrev Hash := List Nat

/-- The all-zero 32-byte array [0u8; 32]. -/
def zeroHash : Hash := List.replicate 32 0

def serU32 (n : Nat) : List Nat := natToLEBytes 4 (n % 2 ^ 32)

def serU64 (n : Nat) : List Nat := natToLEBytes 8 (n % 2 ^ 64)

def serU128 (n : Nat) : List Nat := natToLEBytes 16 (n % 2 ^ 128)

/-- A 20-byte address (crate::types::Address), embedded as the Nat value of
its 20 bytes in little-endian order. -/
def serAddress (a : Nat) : List Nat := natToLEBytes 20 (a % 2 ^ 160)

/-- i64 serialized as 8 little-endian two's-complement bytes. -/
def serI64 (n : Int) : List Nat := natToLEBytes 8 (n.emod (2 ^ 64)).toNat

/-- Vec<u8>: u64 length prefix followed by the raw bytes. -/
def serBytes (l : List Nat) : List Nat := serU64 l.length ++ l.map (· % 256)

/-- Option<T>, T serialized by f: one tag byte, 0 for None and 1 for Some. -/
def serOption (f : α → List Nat) : Option α → List Nat
  | none => [0]
  | some x => 1 :: f x

/-! ## Transaction (src/chain/transaction.rs) -/

inductive TransactionType
  | Transfer
  | StakeDeposit
  | StakeWithdraw
  | AIModelDeploy
  | AIModelInvoke
  | DataValidation
deriving DecidableEq

def TransactionType.variantIndex : TransactionType → Nat
  | .Transfer => 0
  | .StakeDeposit => 1
  | .StakeWithdraw => 2
  | .AIModelDeploy => 3
  | .AIModelInvoke => 4
  | .DataValidation => 5

/-- The Transaction struct of src/chain/transaction.rs.  Addresses are 20-byte
values (embedded as Nat), the signature the Option<Signature> field; the
crate's crypto module is not among the sources, so a signature is embedded as
its byte string. -/
structure Transaction where
  nonce : Nat
  sender : Nat
  recipient : Nat
  value : Nat
  gas_price : Nat
  gas_limit : Nat
  data : List Nat
  transaction_type : TransactionType
  timestamp : Nat
  signature : Option (List Nat)
deriving DecidableEq

/-- bincode::serialize(self) over the declared field order of Transaction
(the `from` and `to` fields of the Rust struct are named sender and recipient
here because from and to are reserved words in Lean). -/
def txSerialize (t : Transaction) : List Nat :=
  serU64 t.nonce ++ serAddress t.sender ++ serAddress t.recipient ++ serU128 t.value ++
  serU64 t.gas_price ++ serU64 t.gas_limit ++ serBytes t.data ++
  serU32 t.transaction_type.variantIndex ++ serU64 t.timestamp ++
  serOption serBytes t.signature

/-- Transaction::hash — SHA3-256 of bincode::serialize(self).  Note that the
serialized value includes the signature field exactly as it is set; the code
does not clear it before hashing. -/
def Transaction.hash (t : Transaction) : Hash := sha3 (txSerialize t)

/-- Transaction with the signature field cleared. -/
def clearSignature (t : Transaction) : Transaction := { t with signature := none }

/-- Transaction with the signature field set, as Transaction::sign leaves the
struct after Signature::sign succeeds (the signature bytes come from the
absent crypto module and are arbitrary here). -/
def withSignature (t : Transaction) (s : List Nat) : Transaction :=
  { t with signature := some s }

/-- The spec's reading of the transaction hash (§3, "hash is the digest of
the canonical encoding with signature cleared"), for comparison with
Transaction.hash. -/
def specTxHash (t : Transaction) : Hash := sha3 (txSerialize (clearSignature t))

/-! ## Merkle root and Block (src/chain/block.rs) -/

/-- The chunks(2) iterator of Rust slices: successive sublists of length 2,
with a final sublist of length 1 when the list has odd length. -/
def chunks2 : List α → List (List α)
  | [] => []
  | [a] => [[a]]
  | a :: b :: t => [a, b] :: chunks2 t

/-- The per-chunk hashing step of Block::calculate_merkle_root: a full chunk
hashes the concatenation of its two elements, an odd trailing chunk hashes
its element concatenated with itself (the duplicated last hash). The
catch-all arm is unreachable because chunks2 only produces lists of length 1
or 2. -/
def merkleChunk : List Hash → Hash
  | [a, b] => sha3 (a ++ b)
  | [a] => sha3 (a ++ a)
  | _ => zeroHash

/-- One iteration of the while loop: the next_level vector. -/
def merklePass (hs : List Hash) : List Hash := (chunks2 hs).map merkleChunk

theorem chunks2_length : ∀ (l : List α), (chunks2 l).length = (l.length + 1) / 2
  | [] => by simp [chunks2]
  | [_] => by simp [chunks2]
  | _ :: _ :: t => by
      simp only [chunks2, List.length_cons, chunks2_length t]
      omega

theorem merklePass_length (hs : List Hash) : (merklePass hs).length = (hs.length + 1) / 2 := by
  simp [merklePass, chunks2_length]

/-- The while loop of Block::calculate_merkle_root: repeat merklePass while
more than one hash remains, then return hashes[0]. The [] arm is unreachable
(the caller returns early on an empty transaction list). -/
def merkleLoop : List Hash → Hash
  | [] => zeroHash
  | [a] => a
  | a :: b :: t => merkleLoop (merklePass (a :: b :: t))
termination_by l => l.length
decreasing_by
  simp only [merklePass_length, List.length_cons]
  omega

/-- Block::calculate_merkle_root over the list of transaction hashes: the
empty transaction list yields [0u8; 32], otherwise the pairwise loop runs on
the per-transaction hashes. -/
def calculate_merkle_root (transactions : List Transaction) : Hash :=
  if transactions.isEmpty then zeroHash
  else merkleLoop (transactions.map Transaction.hash)

/-- The spec's Merkle description (§3), written independently of the code's
chunks(2) rendering: pair the current level left-to-right, duplicating the
last element when the level has odd arity, hash each pair, repeat until one
hash remains. -/
def pairUp : List Hash → List (Hash × Hash)
  | [] => []
  | [a] => [(a, a)]
  | a :: b :: t => (a, b) :: pairUp t

theorem pairUp_length : ∀ (l : List Hash), (pairUp l).length = (l.length + 1) / 2
  | [] => by simp [pairUp]
  | [_] => by simp [pairUp]
  | _ :: _ :: t => by
      simp only [pairUp, List.length_cons, pairUp_length t]
      omega

def specLevel (hs : List Hash) : List Hash := (pairUp hs).map (fun p => sha3 (p.1 ++ p.2))

theorem specLevel_length (hs : List Hash) : (specLevel hs).length = (hs.length + 1) / 2 := by
  simp [specLevel, pairUp_length]

/-- The spec-side Merkle root of a level of hashes. -/
def specMerkleRoot : List Hash → Hash
  | [] => zeroHash
  | [a] => a
  | a :: b :: t => specMerkleRoot (specLevel (a :: b :: t))
termination_by l => l.length
decreasing_by
  simp only [specLevel_length, List.length_cons]
  omega

theorem merklePass_eq_specLevel : ∀ (hs : List Hash), merklePass hs = specLevel hs
  | [] => by simp [merklePass, specLevel, chunks2, pairUp]
  | [a] => by simp [merklePass, specLevel, chunks2, pairUp, merkleChunk]
  | a :: b :: t => by
      simp only [merklePass, specLevel, chunks2, pairUp, List.map_cons, merkleChunk]
      have := merklePass_eq_specLevel t
      simp only [merklePass, specLevel] at this
      simp [this]

theorem merkleLoop_eq_specMerkleRoot : ∀ (hs : List Hash), merkleLoop hs = specMerkleRoot hs
  | [] => by simp [merkleLoop, specMerkleRoot]
  | [a] => by simp [merkleLoop, specMerkleRoot]
  | a :: b :: t => by
      rw [merkleLoop, specMerkleRoot, merklePass_eq_specLevel]
      exact merkleLoop_eq_specMerkleRoot (specLevel (a :: b :: t))
termination_by l => l.length
decreasing_by
  simp only [specLevel_length, List.length_cons]
  omega

/-- The BlockHeader struct of src/chain/block.rs. -/
structure BlockHeader where
  version : Nat
  prev_block_hash : Hash
  merkle_root : Hash
  timestamp : Int
  difficulty : Nat
  nonce : Nat
deriving DecidableEq

/-- bincode::serialize(&self.header) over the declared field order. -/
def headerSerialize (h : BlockHeader) : List Nat :=
  serU32 h.version ++ (h.prev_block_hash.map (· % 256)).take 32 ++
  (h.merkle_root.map (· % 256)).take 32 ++ serI64 h.timestamp ++
  serU32 h.difficulty ++ serU64 h.nonce

/-- The Block struct of src/chain/block.rs. -/
structure Block where
  header : BlockHeader
  transactions : List Transaction
deriving DecidableEq

inductive BlockError
  | TooManyTransactions
  | InvalidMerkleRoot
  | InvalidProof
  | InvalidProposer
  | BadTimestamp
  | UnknownParent
deriving DecidableEq

def MAX_TRANSACTIONS : Nat := 1000

/-- Count of leading zero bits of a byte string read in order. -/
def leadingZeroBits : List Nat → Nat
  | [] => 0
  | b :: t => if b % 256 = 0 then 8 + leadingZeroBits t else 8 - (Nat.log2 (b % 256) + 1)

/-- Modelled from the spec: the crate's consensus/proof.rs is not among the
sources (only block.rs calls it).  Per §3 of the spec, Proof::new hashes the
header bytes and is_valid checks that the leading-zero-bit count of
SHA3(header_bytes) is at least the difficulty. -/
structure Proof where
  digest : Hash
deriving DecidableEq

/-- Modelled from the spec: Proof::new(&header) digests the serialized header. -/
def Proof.new (h : BlockHeader) : Proof := ⟨sha3 (headerSerialize h)⟩

/-- Modelled from the spec: the difficulty predicate, leading-zero-bit count
of the proof digest at least the difficulty. -/
def Proof.is_valid (p : Proof) (difficulty : Nat) : Bool :=
  decide (difficulty ≤ leadingZeroBits p.digest)

/-- Block::validate of src/chain/block.rs: the transaction-count bound, then
the Merkle-root recomputation, then the difficulty predicate; the first
violated check names the error.  No other check appears in the code. -/
def Block.validate (b : Block) : Except BlockError Unit :=
  if MAX_TRANSACTIONS < b.transactions.length then .error .TooManyTransactions
  else if calculate_merkle_root b.transactions = b.header.merkle_root then
    (if (Proof.new b.header).is_valid b.header.difficulty then .ok () else .error .InvalidProof)
  else .error .InvalidMerkleRoot

/-! ## StakeManager (src/consensus/stake_manager.rs) -/

/-- The Stake struct: amount, staked_at (a timestamp, embedded as Nat since
only its preservation matters here), last_reward_height. -/
structure Stake where
  amount : Nat
  staked_at : Nat
  last_reward_height : Nat
deriving DecidableEq

inductive StakeManagerError
  | InsufficientBalance
  | StakeNotFound
deriving DecidableEq

/-- The stake map HashMap<Address, Stake>, embedded as an association list. -/
abbrev Stakes := List (Nat × Stake)

/-- HashMap::get:  first entry with the given key. -/
def stakesLookup : Stakes → Nat → Option Stake
  | [], _ => none
  | p :: t, a => if p.1 = a then some p.2 else stakesLookup t a

/-- In-place update of the entry with the given key (HashMap::get_mut
followed by mutation). -/
def setStake (m : Stakes) (a : Nat) (s : Stake) : Stakes :=
  m.map (fun p => if p.1 = a then (a, s) else p)

/-- HashMap::remove. -/
def removeStake (m : Stakes) (a : Nat) : Stakes :=
  m.filter (fun p => p.1 != a)

/-- The StakeManager.  The storage field is elided: the crate's own tests run
the manager over MemoryStorage, whose get returns what the last set wrote and
never fails, so the aggregated b"stakes" value is carried directly.
reward_rate is the f64 field, embedded as an exact rational. -/
structure StakeManager where
  min_stake : Nat
  reward_rate : ℚ
  stakes : Stakes

/-- StakeManager::stake.  The now argument stands for Utc::now(), passed by
the caller of the embedding; or_insert gives a fresh entry amount zero,
staked_at now, last_reward_height zero, and then amount is added.  An
existing entry keeps its staked_at and last_reward_height. -/
def stake (sm : StakeManager) (now : Nat) (address amount : Nat) :
    Except StakeManagerError StakeManager :=
  if amount < sm.min_stake then .error .InsufficientBalance
  else match stakesLookup sm.stakes address with
    | none => .ok { sm with stakes :=
        sm.stakes ++ [(address, { amount := 0 + amount, staked_at := now, last_reward_height := 0 })] }
    | some s => .ok { sm with stakes :=
        (setStake sm.stakes address ({ s with amount := s.amount + amount })) }

/-- StakeManager::unstake: StakeNotFound when the address has no entry,
InsufficientBalance when the entry holds less than the requested amount;
otherwise the amount is subtracted, the entry removed exactly when the
remaining amount is zero, and the requested amount returned. -/
def unstake (sm : StakeManager) (address amount : Nat) :
    Except StakeManagerError (Nat × StakeManager) :=
  match stakesLookup sm.stakes address with
  | none => .error .StakeNotFound
  | some s =>
    if s.amount < amount then .error .InsufficientBalance
    else
      if s.amount - amount = 0 then
        .ok (amount, { sm with stakes := removeStake sm.stakes address })
      else
        .ok (amount, { sm with stakes :=
          (setStake sm.stakes address ({ s with amount := s.amount - amount })) })

/-- f64::round (round half away from zero) followed by as u64.  For the
nonnegative products arising from stake amounts this is floor(q + 1/2); for a
negative product both the Rust pipeline (round then saturating cast) and this
embedding yield zero. -/
def rustRound (q : ℚ) : Nat := (Int.floor (q + 1/2)).toNat

/-- The reward expression of calculate_rewards:
(amount as f64 * reward_rate * blocks_since_last_reward as f64).round() as u64,
with the f64 products embedded as exact rationals and the BlockHeight
subtraction as truncated Nat subtraction. -/
def rewardOf (rate : ℚ) (s : Stake) (current_height : Nat) : Nat :=
  rustRound ((s.amount : ℚ) * rate * ((current_height - s.last_reward_height : ℕ) : ℚ))

/-- StakeManager::calculate_rewards. -/
def calculate_rewards (sm : StakeManager) (address current_height : Nat) :
    Except StakeManagerError Nat :=
  match stakesLookup sm.stakes address with
  | none => .error .StakeNotFound
  | some s => .ok (rewardOf sm.reward_rate s current_height)

/-- One iteration of the distribute_rewards loop.  The loop mutates the
in-memory map entry p while the reward comes from self.calculate_rewards,
which re-reads the stored map — the state before the loop, written back only
after it — hence the lookup into the original sm.stakes.  The none arm is
unreachable: the iterated key is present in the map being looked up. -/
def distributeEntry (sm : StakeManager) (current_height : Nat) (p : Nat × Stake) : Nat × Stake :=
  match stakesLookup sm.stakes p.1 with
  | some s0 => (p.1, { p.2 with
      amount := p.2.amount + rewardOf sm.reward_rate s0 current_height,
      last_reward_height := current_height })
  | none => p

/-- StakeManager::distribute_rewards: every entry is credited its reward and
stamped with the current height, then the map is written back once. -/
def distribute_rewards (sm : StakeManager) (current_height : Nat) : StakeManager :=
  { sm with stakes := sm.stakes.map (distributeEntry sm current_height) }

/-! ## Synchronizer (src/network/sync.rs) -/

/-- The peer scan of sync_with_network.  A report is some h when
peer.get_height() returned Ok(h) and none when it failed; the fold carries
(highest_peer, highest_height), started at (None, local_height), and replaces
the pair only on a strictly higher reported height.  Peers are identified by
their position in the list. -/
def peerStep (i : Nat) (best : Option Nat × Nat) (r : Option Nat) : Option Nat × Nat :=
  match r with
  | some h => if best.2 < h then (some i, h) else best
  | none => best

def selectPeerGo (i : Nat) (best : Option Nat × Nat) : List (Option Nat) → Option Nat × Nat
  | [] => best
  | r :: rest => selectPeerGo (i + 1) (peerStep i best r) rest

/-- The (highest_peer, highest_height) pair after scanning all reports. -/
def sync_select (local_height : Nat) (reports : List (Option Nat)) : Option Nat × Nat :=
  selectPeerGo 0 (none, local_height) reports

/-- Synchronizer::sync_with_network for one round, abstracted over the chain
effect: doSync peer start end is sync_with_peer, invoked only when a highest
peer was selected; with no active peers, or no peer strictly above the local
height, the round returns with the chain height untouched. -/
def sync_with_network (doSync : Nat → Nat → Nat → Nat) (local_height : Nat)
    (reports : List (Option Nat)) : Nat :=
  if reports.isEmpty then local_height
  else
    match sync_select local_height reports with
    | (some i, h) => doSync i local_height h
    | (none, _) => local_height

/-! ## Concrete inputs used by witnesses and counterexamples -/

/-- A concrete transaction (the shape of the crate's own test transactions). -/
def sampleTx : Transaction :=
  { nonce := 0, sender := 1, recipient := 2, value := 100, gas_price := 10,
    gas_limit := 21000, data := [], transaction_type := .Transfer,
    timestamp := 1700000000, signature := none }

def sampleTx2 : Transaction := { sampleTx with nonce := 1, recipient := 3 }

/-! ## Theorems -/

/-- C1: for every non-empty transaction list, Block::calculate_merkle_root is
the spec's pairwise left-to-right Merkle fold with the last element duplicated
on odd arity, and on a three-transaction block with hashes h1, h2, h3 the root
is H(H(h1 ∥ h2) ∥ H(h3 ∥ h3)). -/
theorem merkle_root_pairwise_dup_last (txs : List Transaction) (t1 t2 t3 : Transaction)
    (hne : txs ≠ []) :
    calculate_merkle_root txs = specMerkleRoot (txs.map Transaction.hash) ∧
    calculate_merkle_root [t1, t2, t3] =
      sha3 (sha3 (t1.hash ++ t2.hash) ++ sha3 (t3.hash ++ t3.hash)) := by
  constructor
  · rw [calculate_merkle_root, if_neg (by simpa using hne), merkleLoop_eq_specMerkleRoot]
  · rw [calculate_merkle_root]
    simp only [List.isEmpty_cons, Bool.false_eq_true, if_false, List.map_cons, List.map_nil]
    simp [merkleLoop, merklePass, chunks2, merkleChunk]

/-- Witness for C1 at a concrete singleton list and concrete transactions. -/
theorem merkle_root_pairwise_dup_last_witness :
    ([sampleTx] : List Transaction) ≠ [] ∧
    (calculate_merkle_root [sampleTx] = specMerkleRoot ([sampleTx].map Transaction.hash) ∧
     calculate_merkle_root [sampleTx, sampleTx2, sampleTx] =
       sha3 (sha3 (sampleTx.hash ++ sampleTx2.hash) ++ sha3 (sampleTx.hash ++ sampleTx.hash))) :=
  ⟨by simp, merkle_root_pairwise_dup_last [sampleTx] sampleTx sampleTx2 sampleTx (by simp)⟩

/-- C10: the empty transaction list yields the all-zero 32-byte Merkle root,
and an empty block passes the Merkle check of Block::validate exactly when its
header's merkle_root is the zero hash. -/
theorem merkle_root_empty_is_zero (hdr : BlockHeader) :
    calculate_merkle_root [] = zeroHash ∧
    (Block.validate { header := hdr, transactions := [] } ≠ .error .InvalidMerkleRoot ↔
      hdr.merkle_root = zeroHash) := by
  refine ⟨rfl, ?_⟩
  unfold Block.validate
  dsimp only
  norm_num [MAX_TRANSACTIONS, calculate_merkle_root]
  by_cases h : hdr.merkle_root = zeroHash
  · constructor
    · intro _
      exact h
    · intro _
      refine ⟨h.symm, ?_⟩
      split <;> simp
  · constructor
    · rintro ⟨hz, -⟩
      exact absurd hz.symm h
    · intro hz
      exact absurd hz h

/-- C3 (amended): Block::validate checks exactly the transaction-count bound,
the Merkle-root match and the difficulty predicate, in that order; it performs
no signature check and no (from, nonce) duplicate check. -/
theorem validate_three_checks (b : Block) :
    (b.validate = .ok () ↔
      (b.transactions.length ≤ MAX_TRANSACTIONS ∧
       calculate_merkle_root b.transactions = b.header.merkle_root ∧
       (Proof.new b.header).is_valid b.header.difficulty = true)) ∧
    (b.validate = .error .TooManyTransactions ↔ MAX_TRANSACTIONS < b.transactions.length) ∧
    (b.validate = .error .InvalidMerkleRoot ↔
      (b.transactions.length ≤ MAX_TRANSACTIONS ∧
       calculate_merkle_root b.transactions ≠ b.header.merkle_root)) ∧
    (b.validate = .error .InvalidProof ↔
      (b.transactions.length ≤ MAX_TRANSACTIONS ∧
       calculate_merkle_root b.transactions = b.header.merkle_root ∧
       (Proof.new b.header).is_valid b.header.difficulty = false)) := by
  unfold Block.validate
  by_cases h1 : MAX_TRANSACTIONS < b.transactions.length
  · simp [h1, Nat.not_le.mpr h1]
  · by_cases h2 : calculate_merkle_root b.transactions = b.header.merkle_root
    · by_cases h3 : (Proof.new b.header).is_valid b.header.difficulty = true
      · simp [h1, h2, h3, Nat.not_lt.mp h1]
      · rw [Bool.not_eq_true] at h3
        simp [h1, h2, h3, Nat.not_lt.mp h1]
    · simp [h1, h2, Nat.not_lt.mp h1]

/-- A block holding the same (from, nonce) pair twice, with no signatures,
whose header commits to the recomputed Merkle root and difficulty zero. -/
def cx3Tx1 : Transaction :=
  { nonce := 7, sender := 1, recipient := 2, value := 5, gas_price := 1, gas_limit := 1,
    data := [], transaction_type := .Transfer, timestamp := 0, signature := none }

def cx3Tx2 : Transaction := { cx3Tx1 with recipient := 3 }

def cx3Header : BlockHeader :=
  { version := 1, prev_block_hash := zeroHash,
    merkle_root := calculate_merkle_root [cx3Tx1, cx3Tx2],
    timestamp := 0, difficulty := 0, nonce := 0 }

def cx3Block : Block := { header := cx3Header, transactions := [cx3Tx1, cx3Tx2] }

/-- Counterexample for C3: a block with two distinct unsigned transactions
sharing the same (from, nonce) pair still validates Ok, so Ok does not imply
signature validity or (from, nonce) uniqueness. -/
theorem validate_skips_signature_and_nonce_checks :
    Block.validate cx3Block = .ok () ∧
    cx3Tx1.sender = cx3Tx2.sender ∧ cx3Tx1.nonce = cx3Tx2.nonce ∧ cx3Tx1 ≠ cx3Tx2 ∧
    cx3Tx1.signature = none ∧ cx3Tx2.signature = none := by
  refine ⟨?_, rfl, rfl, by decide, rfl, rfl⟩
  unfold Block.validate
  rw [if_neg (by decide)]
  have hm : calculate_merkle_root cx3Block.transactions = cx3Block.header.merkle_root := rfl
  rw [if_pos hm]
  have h3 : (Proof.new cx3Block.header).is_valid cx3Block.header.difficulty = true := by
    have hd : cx3Block.header.difficulty = 0 := rfl
    rw [Proof.is_valid, hd]
    exact decide_eq_true (Nat.zero_le _)
  rw [if_pos h3]

/-! ## Stake map lemmas -/

theorem stakesLookup_setStake_self (m : Stakes) (a : Nat) (s : Stake) :
    stakesLookup (setStake m a s) a = (stakesLookup m a).map (fun _ => s) := by
  induction m with
  | nil => rfl
  | cons p t ih =>
    simp only [setStake] at ih ⊢
    by_cases h : p.1 = a <;> simp [stakesLookup, h, ih]

theorem stakesLookup_setStake_ne (m : Stakes) (a b : Nat) (s : Stake) (hba : b ≠ a) :
    stakesLookup (setStake m a s) b = stakesLookup m b := by
  induction m with
  | nil => rfl
  | cons p t ih =>
    simp only [setStake] at ih ⊢
    by_cases h : p.1 = a
    · simp [stakesLookup, h, ih, Ne.symm hba]
    · simp [stakesLookup, h, ih]

theorem stakesLookup_removeStake_self (m : Stakes) (a : Nat) :
    stakesLookup (removeStake m a) a = none := by
  induction m with
  | nil => rfl
  | cons p t ih =>
    simp only [removeStake] at ih ⊢
    by_cases h : p.1 = a
    · simp [List.filter_cons, h, ih]
    · simp [List.filter_cons, h, stakesLookup, ih]

theorem stakesLookup_removeStake_ne (m : Stakes) (a b : Nat) (hba : b ≠ a) :
    stakesLookup (removeStake m a) b = stakesLookup m b := by
  induction m with
  | nil => rfl
  | cons p t ih =>
    simp only [removeStake] at ih ⊢
    by_cases h : p.1 = a
    · simp [List.filter_cons, h, stakesLookup, Ne.symm hba, ih]
    · simp [List.filter_cons, h, stakesLookup, ih]

theorem stakesLookup_append_one : ∀ (m : Stakes) (a : Nat) (s : Stake),
    stakesLookup m a = none → stakesLookup (m ++ [(a, s)]) a = some s
  | [], a, s, _ => by simp [stakesLookup]
  | p :: t, a, s, h => by
      rw [stakesLookup] at h
      by_cases hp : p.1 = a
      · rw [if_pos hp] at h
        exact absurd h (by simp)
      · rw [if_neg hp] at h
        rw [List.cons_append, stakesLookup, if_neg hp]
        exact stakesLookup_append_one t a s h

theorem stakesLookup_append_one_ne : ∀ (m : Stakes) (a b : Nat) (s : Stake), b ≠ a →
    stakesLookup (m ++ [(a, s)]) b = stakesLookup m b
  | [], a, b, s, hba => by simp [stakesLookup, Ne.symm hba]
  | p :: t, a, b, s, hba => by
      rw [List.cons_append, stakesLookup, stakesLookup]
      by_cases hp : p.1 = b
      · simp [hp]
      · rw [if_neg hp, if_neg hp]
        exact stakesLookup_append_one_ne t a b s hba

theorem stakesLookup_mem : ∀ (m : Stakes) (a : Nat) (s : Stake),
    stakesLookup m a = some s → (a, s) ∈ m
  | [], _, _, h => by simp [stakesLookup] at h
  | p :: t, a, s, h => by
      rw [stakesLookup] at h
      by_cases hp : p.1 = a
      · rw [if_pos hp] at h
        rw [List.mem_cons]
        left
        obtain ⟨p1, p2⟩ := p
        simp only at hp
        simp only [Option.some.injEq] at h
        rw [hp, h]
      · rw [if_neg hp] at h
        exact List.mem_cons_of_mem _ (stakesLookup_mem t a s h)

theorem stakesLookup_isSome_of_mem : ∀ (m : Stakes) (p : Nat × Stake),
    p ∈ m → (stakesLookup m p.1).isSome = true
  | [], p, h => by simp at h
  | q :: t, p, h => by
      rw [stakesLookup]
      by_cases hq : q.1 = p.1
      · simp [hq]
      · rw [if_neg hq]
        rcases List.mem_cons.mp h with h1 | h2
        · exact absurd (congrArg Prod.fst h1).symm hq
        · exact stakesLookup_isSome_of_mem t p h2

/-! ## Stake manager theorems -/

/-- Every entry of the stake map holds at least min_stake. -/
def StakeMapInv (sm : StakeManager) : Prop := ∀ p ∈ sm.stakes, sm.min_stake ≤ p.2.amount

/-- Every entry of the stake map holds a positive amount. -/
def StakeMapPos (sm : StakeManager) : Prop := ∀ p ∈ sm.stakes, 0 < p.2.amount

theorem map_id_of_forall (l : List α) (f : α → α) (h : ∀ x ∈ l, f x = x) : l.map f = l := by
  induction l with
  | nil => rfl
  | cons a t ih =>
    rw [List.map_cons, h a (by simp), ih (fun x hx => h x (by simp [hx]))]

theorem distributeEntry_of_mem (sm : StakeManager) (H : Nat) (p : Nat × Stake)
    (hp : p ∈ sm.stakes) :
    ∃ s0, stakesLookup sm.stakes p.1 = some s0 ∧
      distributeEntry sm H p = (p.1, { p.2 with
        amount := p.2.amount + rewardOf sm.reward_rate s0 H,
        last_reward_height := H }) := by
  have hs := stakesLookup_isSome_of_mem sm.stakes p hp
  cases hl : stakesLookup sm.stakes p.1 with
  | none =>
    rw [hl] at hs
    simp at hs
  | some s0 =>
    refine ⟨s0, rfl, ?_⟩
    rw [distributeEntry, hl]

theorem mem_distribute_last (sm : StakeManager) (H : Nat) (q : Nat × Stake)
    (hq : q ∈ (distribute_rewards sm H).stakes) : q.2.last_reward_height = H := by
  simp only [distribute_rewards] at hq
  obtain ⟨p, hp, hq2⟩ := List.mem_map.mp hq
  obtain ⟨s0, _, he⟩ := distributeEntry_of_mem sm H p hp
  rw [← hq2, he]

theorem rustRound_zero : rustRound 0 = 0 := by
  have h1 : ((0 : ℚ) + 1 / 2) = 1 / 2 := by norm_num
  rw [rustRound, h1]
  have h2 : Int.floor ((1 : ℚ) / 2) = 0 := by
    rw [Int.floor_eq_zero_iff]
    constructor <;> norm_num
  rw [h2]
  rfl

/-- C6: distribute_rewards at a fixed height is idempotent: every entry of
the once-distributed map has last_reward_height = H, so the second pass
computes a zero reward for every entry and rewrites the same height. -/
theorem distribute_rewards_idempotent (sm : StakeManager) (H : Nat) :
    distribute_rewards (distribute_rewards sm H) H = distribute_rewards sm H := by
  have key : ∀ q ∈ (distribute_rewards sm H).stakes,
      distributeEntry (distribute_rewards sm H) H q = q := by
    intro q hq
    obtain ⟨s0, hl, he⟩ := distributeEntry_of_mem (distribute_rewards sm H) H q hq
    have hs0last : s0.last_reward_height = H :=
      mem_distribute_last sm H (q.1, s0) (stakesLookup_mem _ _ _ hl)
    have hqlast : q.2.last_reward_height = H := mem_distribute_last sm H q hq
    rw [he]
    have hr : rewardOf (distribute_rewards sm H).reward_rate s0 H = 0 := by
      rw [rewardOf, hs0last]
      simp [rustRound_zero]
    rw [hr]
    obtain ⟨a, st⟩ := q
    obtain ⟨am, sa, lh⟩ := st
    simp only at hqlast
    simp [hqlast]
  conv_lhs => rw [distribute_rewards]
  rw [map_id_of_forall _ _ key]

/-- C7: unstake fails StakeNotFound exactly when the address has no entry,
fails InsufficientBalance exactly when the entry holds strictly less than the
requested amount, and on success returns the requested amount, decreases the
entry by exactly that amount, removes it exactly when the remainder is zero,
and leaves every other address unchanged.  An error constructs no new state,
so the stake map is unchanged on failure. -/
theorem unstake_spec (sm sm2 : StakeManager) (address amount ret b : Nat) :
    (unstake sm address amount = .error .StakeNotFound ↔
      stakesLookup sm.stakes address = none) ∧
    (unstake sm address amount = .error .InsufficientBalance ↔
      (∃ s, stakesLookup sm.stakes address = some s ∧ s.amount < amount)) ∧
    (unstake sm address amount = .ok (ret, sm2) →
      (ret = amount ∧
       (∀ s, stakesLookup sm.stakes address = some s →
          stakesLookup sm2.stakes address =
            (if s.amount - amount = 0 then none
             else some ({ s with amount := s.amount - amount }))) ∧
       (b ≠ address → stakesLookup sm2.stakes b = stakesLookup sm.stakes b))) := by
  cases hl : stakesLookup sm.stakes address with
  | none =>
    unfold unstake
    rw [hl]
    refine ⟨by simp, by simp, by simp⟩
  | some s0 =>
    unfold unstake
    rw [hl]
    dsimp only
    by_cases hb : s0.amount < amount
    · rw [if_pos hb]
      refine ⟨by simp, ?_, by simp⟩
      constructor
      · intro _
        exact ⟨s0, rfl, hb⟩
      · intro _
        rfl
    · rw [if_neg hb]
      by_cases hz : s0.amount - amount = 0
      · rw [if_pos hz]
        refine ⟨by simp, by simp [hb], ?_⟩
        intro h
        rw [Except.ok.injEq, Prod.mk.injEq] at h
        obtain ⟨hr, hsm⟩ := h
        subst hsm
        refine ⟨hr.symm, ?_, ?_⟩
        · intro s hs
          injection hs with hs2
          subst hs2
          rw [if_pos hz]
          exact stakesLookup_removeStake_self sm.stakes address
        · intro hbne
          exact stakesLookup_removeStake_ne sm.stakes address b hbne
      · rw [if_neg hz]
        refine ⟨by simp, by simp [hb], ?_⟩
        intro h
        rw [Except.ok.injEq, Prod.mk.injEq] at h
        obtain ⟨hr, hsm⟩ := h
        subst hsm
        refine ⟨hr.symm, ?_, ?_⟩
        · intro s hs
          injection hs with hs2
          subst hs2
          rw [if_neg hz]
          have hset := stakesLookup_setStake_self sm.stakes address
            ({ s0 with amount := s0.amount - amount })
          rw [hl] at hset
          exact hset
        · intro hbne
          exact stakesLookup_setStake_ne sm.stakes address b _ hbne

/-- C8: stake fails InsufficientBalance exactly when the amount is below
min_stake (and constructs no new state on failure); on success the entry for
the address grows by exactly the amount — a first deposit creates the entry
with staked_at now and last_reward_height zero — and every other address is
unchanged. -/
theorem stake_spec (sm sm2 : StakeManager) (now address amount b : Nat) :
    (stake sm now address amount = .error .InsufficientBalance ↔ amount < sm.min_stake) ∧
    (stake sm now address amount = .ok sm2 →
      (sm2.min_stake = sm.min_stake ∧
       stakesLookup sm2.stakes address =
         some (match stakesLookup sm.stakes address with
               | none => { amount := amount, staked_at := now, last_reward_height := 0 }
               | some s => { s with amount := s.amount + amount }) ∧
       (b ≠ address → stakesLookup sm2.stakes b = stakesLookup sm.stakes b))) := by
  by_cases ha : amount < sm.min_stake
  · unfold stake
    rw [if_pos ha]
    exact ⟨by simp [ha], by simp⟩
  · unfold stake
    rw [if_neg ha]
    cases hl : stakesLookup sm.stakes address with
    | none =>
      dsimp only
      refine ⟨by simp [ha], ?_⟩
      intro h
      injection h with h2
      subst h2
      refine ⟨rfl, ?_, ?_⟩
      · simpa using stakesLookup_append_one sm.stakes address _ hl
      · intro hbne
        exact stakesLookup_append_one_ne sm.stakes address b _ hbne
    | some s0 =>
      dsimp only
      refine ⟨by simp [ha], ?_⟩
      intro h
      injection h with h2
      subst h2
      refine ⟨rfl, ?_, ?_⟩
      · have hset := stakesLookup_setStake_self sm.stakes address
          ({ s0 with amount := s0.amount + amount })
        rw [hl] at hset
        exact hset
      · intro hbne
        exact stakesLookup_setStake_ne sm.stakes address b _ hbne

/-- C4 (amended): stake and distribute_rewards preserve the min-stake
invariant, while a successful unstake only guarantees positivity of the
remaining entries (the entry is removed exactly when its amount reaches
zero); a partial unstake can leave the entry strictly below min_stake. -/
theorem stake_manager_invariants (sm sm2 : StakeManager) (now address amount H ret : Nat) :
    (StakeMapInv sm → stake sm now address amount = .ok sm2 → StakeMapInv sm2) ∧
    (StakeMapInv sm → StakeMapInv (distribute_rewards sm H)) ∧
    (StakeMapPos sm → unstake sm address amount = .ok (ret, sm2) → StakeMapPos sm2) := by
  refine ⟨?_, ?_, ?_⟩
  · intro hinv hok
    simp only [StakeMapInv] at hinv ⊢
    unfold stake at hok
    by_cases ha : amount < sm.min_stake
    · rw [if_pos ha] at hok
      exact absurd hok (by simp)
    · rw [if_neg ha] at hok
      cases hl : stakesLookup sm.stakes address with
      | none =>
        rw [hl] at hok
        dsimp only at hok
        injection hok with h2
        subst h2
        intro p hp
        dsimp only at hp ⊢
        rcases List.mem_append.mp hp with hmem | hnew
        · exact hinv p hmem
        · have hp2 : p = (address,
              { amount := 0 + amount, staked_at := now, last_reward_height := 0 }) := by
            simpa using hnew
          rw [hp2]
          dsimp only
          omega
      | some s0 =>
        rw [hl] at hok
        dsimp only at hok
        injection hok with h2
        subst h2
        intro p hp
        dsimp only at hp ⊢
        simp only [setStake] at hp
        obtain ⟨q, hq, hpe⟩ := List.mem_map.mp hp
        by_cases hqa : q.1 = address
        · rw [if_pos hqa] at hpe
          rw [← hpe]
          have hmem := stakesLookup_mem sm.stakes address s0 hl
          have := hinv (address, s0) hmem
          dsimp only at this ⊢
          omega
        · rw [if_neg hqa] at hpe
          rw [← hpe]
          exact hinv q hq
  · intro hinv
    simp only [StakeMapInv] at hinv ⊢
    intro p hp
    simp only [distribute_rewards] at hp ⊢
    obtain ⟨q, hq, hpe⟩ := List.mem_map.mp hp
    obtain ⟨s0, hl0, he⟩ := distributeEntry_of_mem sm H q hq
    rw [he] at hpe
    rw [← hpe]
    dsimp only
    have := hinv q hq
    omega
  · intro hpos hok
    simp only [StakeMapPos] at hpos ⊢
    unfold unstake at hok
    cases hl : stakesLookup sm.stakes address with
    | none =>
      rw [hl] at hok
      exact absurd hok (by simp)
    | some s0 =>
      rw [hl] at hok
      dsimp only at hok
      by_cases hb : s0.amount < amount
      · rw [if_pos hb] at hok
        exact absurd hok (by simp)
      · rw [if_neg hb] at hok
        by_cases hz : s0.amount - amount = 0
        · rw [if_pos hz] at hok
          injection hok with h2
          rw [Prod.mk.injEq] at h2
          obtain ⟨-, h3⟩ := h2
          subst h3
          intro p hp
          dsimp only at hp ⊢
          exact hpos p (List.mem_of_mem_filter hp)
        · rw [if_neg hz] at hok
          injection hok with h2
          rw [Prod.mk.injEq] at h2
          obtain ⟨-, h3⟩ := h2
          subst h3
          intro p hp
          dsimp only at hp ⊢
          simp only [setStake] at hp
          obtain ⟨q, hq, hpe⟩ := List.mem_map.mp hp
          by_cases hqa : q.1 = address
          · rw [if_pos hqa] at hpe
            rw [← hpe]
            dsimp only
            omega
          · rw [if_neg hqa] at hpe
            rw [← hpe]
            exact hpos q hq

/-- The states of the C4 counterexample run: empty map, a fresh stake of 100
at min_stake 100, and the state after unstaking 50 of it. -/
def cx4SM0 : StakeManager := { min_stake := 100, reward_rate := 1 / 1000, stakes := [] }

def cx4SM1 : StakeManager :=
  { min_stake := 100, reward_rate := 1 / 1000,
    stakes := [(7, { amount := 100, staked_at := 5, last_reward_height := 0 })] }

def cx4SM2 : StakeManager :=
  { min_stake := 100, reward_rate := 1 / 1000,
    stakes := [(7, { amount := 50, staked_at := 5, last_reward_height := 0 })] }

/-- Counterexample for C4: after stake(7, 100) at min_stake 100, the
successful unstake(7, 50) leaves the entry at amount 50, strictly below
min_stake, so the claimed invariant is not preserved by unstake. -/
theorem unstake_leaves_entry_below_min_stake :
    stake cx4SM0 5 7 100 = .ok cx4SM1 ∧
    unstake cx4SM1 7 50 = .ok (50, cx4SM2) ∧
    stakesLookup cx4SM2.stakes 7 =
      some { amount := 50, staked_at := 5, last_reward_height := 0 } ∧
    50 < cx4SM2.min_stake := by
  refine ⟨rfl, rfl, rfl, by norm_num [cx4SM2]⟩

/-- Witness for C4: the amended invariants applied along the counterexample
run and at a distribution. -/
theorem stake_manager_invariants_witness :
    StakeMapInv cx4SM1 ∧ StakeMapInv (distribute_rewards cx4SM1 3) ∧ StakeMapPos cx4SM2 :=
  ⟨(stake_manager_invariants cx4SM0 cx4SM1 5 7 100 0 0).1 (by simp [StakeMapInv, cx4SM0]) rfl,
   (stake_manager_invariants cx4SM1 cx4SM1 5 7 100 3 0).2.1
     (by simp [StakeMapInv, cx4SM1]),
   (stake_manager_invariants cx4SM1 cx4SM2 5 7 50 0 50).2.2
     (by simp [StakeMapPos, cx4SM1]) rfl⟩

/-- Witness for C7: unstake applied on the concrete counterexample states:
error cases and the success case on the concrete map. -/
theorem unstake_spec_witness :
    (unstake cx4SM0 7 50 = .error .StakeNotFound ↔ stakesLookup cx4SM0.stakes 7 = none) ∧
    (unstake cx4SM1 7 50 = .ok (50, cx4SM2) →
      (50 = 50 ∧
       (∀ s, stakesLookup cx4SM1.stakes 7 = some s →
          stakesLookup cx4SM2.stakes 7 =
            (if s.amount - 50 = 0 then none
             else some ({ s with amount := s.amount - 50 }))) ∧
       (3 ≠ 7 → stakesLookup cx4SM2.stakes 3 = stakesLookup cx4SM1.stakes 3))) :=
  ⟨(unstake_spec cx4SM0 cx4SM2 7 50 50 3).1,
   fun h => ((unstake_spec cx4SM1 cx4SM2 7 50 50 3).2.2 h)⟩

/-- Witness for C8: stake applied at the concrete first deposit. -/
theorem stake_spec_witness :
    (stake cx4SM0 5 7 100 = .error .InsufficientBalance ↔ 100 < cx4SM0.min_stake) ∧
    (cx4SM1.min_stake = cx4SM0.min_stake ∧
     stakesLookup cx4SM1.stakes 7 =
       some (match stakesLookup cx4SM0.stakes 7 with
             | none => { amount := 100, staked_at := 5, last_reward_height := 0 }
             | some s => { s with amount := s.amount + 100 }) ∧
     (3 ≠ 7 → stakesLookup cx4SM1.stakes 3 = stakesLookup cx4SM0.stakes 3)) :=
  ⟨(stake_spec cx4SM0 cx4SM1 5 7 100 3).1,
   (stake_spec cx4SM0 cx4SM1 5 7 100 3).2 rfl⟩

/-! ## Reward arithmetic (C5) -/

/-- The C5 state: one staker with amount 500, last rewarded at height 0,
manager rate 0.001. -/
def cx5SM : StakeManager :=
  { min_stake := 100, reward_rate := 1 / 1000,
    stakes := [(0, { amount := 500, staked_at := 0, last_reward_height := 0 })] }

/-- The same state at rate 0.1. -/
def cx5SMb : StakeManager := { cx5SM with reward_rate := 1 / 10 }

/-- Counterexample for C5: with amount 500, rate 0.001 and one elapsed block
the code credits 1 — f64 round of 0.5 — while the claimed floor formula gives
0. -/
theorem calculate_rewards_not_floor :
    calculate_rewards cx5SM 0 1 = .ok 1 ∧
    (Int.floor ((500 : ℚ) * (1 / 1000) * 1)).toNat = 0 := by
  constructor
  · have hl : stakesLookup cx5SM.stakes 0 =
        some { amount := 500, staked_at := 0, last_reward_height := 0 } := rfl
    unfold calculate_rewards
    rw [hl]
    dsimp only
    congr 1
    unfold rewardOf rustRound
    have h : (((500 : Nat) : ℚ)) * cx5SM.reward_rate *
        ((((1 : Nat) - (0 : Nat) : ℕ)) : ℚ) + 1 / 2 = 1 := by
      norm_num [cx5SM]
    rw [h, Int.floor_one]
    rfl
  · have h : (500 : ℚ) * (1 / 1000) * 1 = 1 / 2 := by norm_num
    rw [h]
    have h2 : Int.floor ((1 : ℚ) / 2) = 0 := by
      rw [Int.floor_eq_zero_iff]
      constructor <;> norm_num
    rw [h2]
    rfl

/-- C5 (amended): calculate_rewards returns round(amount × rate × (H − h0))
with round half away from zero — the f64 round the code applies — rather than
floor; with amount 500 and one elapsed block the credit is 1 at rate 0.001
and 50 at rate 0.1. -/
theorem calculate_rewards_formula (sm : StakeManager) (address H : Nat) (s : Stake)
    (hl : stakesLookup sm.stakes address = some s) :
    calculate_rewards sm address H =
      .ok ((Int.floor ((s.amount : ℚ) * sm.reward_rate *
              ((H - s.last_reward_height : ℕ) : ℚ) + 1 / 2)).toNat) ∧
    calculate_rewards cx5SM 0 1 = .ok 1 ∧
    calculate_rewards cx5SMb 0 1 = .ok 50 := by
  refine ⟨?_, ?_, ?_⟩
  · unfold calculate_rewards
    rw [hl]
    dsimp only
    rfl
  · have hl : stakesLookup cx5SM.stakes 0 =
        some { amount := 500, staked_at := 0, last_reward_height := 0 } := rfl
    unfold calculate_rewards
    rw [hl]
    dsimp only
    congr 1
    unfold rewardOf rustRound
    have h : (((500 : Nat) : ℚ)) * cx5SM.reward_rate *
        ((((1 : Nat) - (0 : Nat) : ℕ)) : ℚ) + 1 / 2 = 1 := by
      norm_num [cx5SM]
    rw [h, Int.floor_one]
    rfl
  · have hl : stakesLookup cx5SMb.stakes 0 =
        some { amount := 500, staked_at := 0, last_reward_height := 0 } := rfl
    unfold calculate_rewards
    rw [hl]
    dsimp only
    congr 1
    unfold rewardOf rustRound
    have h : (((500 : Nat) : ℚ)) * cx5SMb.reward_rate *
        ((((1 : Nat) - (0 : Nat) : ℕ)) : ℚ) + 1 / 2 = 101 / 2 := by
      norm_num [cx5SMb, cx5SM]
    rw [h]
    have h2 : Int.floor ((101 : ℚ) / 2) = 50 := by
      rw [Int.floor_eq_iff]
      constructor <;> norm_num
    rw [h2]
    rfl

/-- Witness for C5 (amended) at the concrete staker. -/
theorem calculate_rewards_formula_witness :
    stakesLookup cx5SM.stakes 0 =
      some { amount := 500, staked_at := 0, last_reward_height := 0 } ∧
    (calculate_rewards cx5SM 0 1 =
      .ok ((Int.floor (((500 : Nat) : ℚ) * cx5SM.reward_rate *
              ((((1 : Nat) - (0 : Nat) : ℕ)) : ℚ) + 1 / 2)).toNat) ∧
     calculate_rewards cx5SM 0 1 = .ok 1 ∧
     calculate_rewards cx5SMb 0 1 = .ok 50) :=
  ⟨rfl, calculate_rewards_formula cx5SM 0 1
    { amount := 500, staked_at := 0, last_reward_height := 0 } rfl⟩

/-! ## Synchronizer theorems (C9) -/

theorem selectPeerGo_snd_le : ∀ (reports : List (Option Nat)) (i : Nat)
    (best : Option Nat × Nat), best.2 ≤ (selectPeerGo i best reports).2
  | [], _, _ => le_refl _
  | r :: rest, i, best => by
      rw [selectPeerGo]
      dsimp only [peerStep]
      cases r with
      | none => exact selectPeerGo_snd_le rest (i + 1) best
      | some h =>
        dsimp only
        by_cases hh : best.2 < h
        · rw [if_pos hh]
          exact le_trans (le_of_lt hh)
            (by simpa using selectPeerGo_snd_le rest (i + 1) (some i, h))
        · rw [if_neg hh]
          exact selectPeerGo_snd_le rest (i + 1) best

theorem selectPeerGo_reported_le : ∀ (reports : List (Option Nat)) (i : Nat)
    (best : Option Nat × Nat) (r : Option Nat), r ∈ reports →
    r.getD 0 ≤ (selectPeerGo i best reports).2
  | [], _, _, _, h => absurd h (List.not_mem_nil _)
  | q :: rest, i, best, r, h => by
      rw [selectPeerGo]
      dsimp only [peerStep]
      rcases List.mem_cons.mp h with h1 | h2
      · subst h1
        cases r with
        | none => simp
        | some hq =>
          dsimp only
          by_cases hh : best.2 < hq
          · rw [if_pos hh]
            simp only [Option.getD_some]
            simpa using selectPeerGo_snd_le rest (i + 1) (some i, hq)
          · rw [if_neg hh]
            exact le_trans (Nat.not_lt.mp hh) (selectPeerGo_snd_le rest (i + 1) best)
      · cases q with
        | none => exact selectPeerGo_reported_le rest (i + 1) best r h2
        | some hq =>
          dsimp only
          by_cases hh : best.2 < hq
          · rw [if_pos hh]
            exact selectPeerGo_reported_le rest (i + 1) _ r h2
          · rw [if_neg hh]
            exact selectPeerGo_reported_le rest (i + 1) best r h2

theorem selectPeerGo_none : ∀ (reports : List (Option Nat)) (i b2 : Nat),
    (∀ r ∈ reports, r.getD 0 ≤ b2) → selectPeerGo i (none, b2) reports = (none, b2)
  | [], _, _, _ => rfl
  | q :: rest, i, b2, hall => by
      rw [selectPeerGo]
      dsimp only [peerStep]
      cases q with
      | none => exact selectPeerGo_none rest (i + 1) b2 (fun r hr => hall r (by simp [hr]))
      | some hq =>
        dsimp only
        have hle : hq ≤ b2 := by simpa using hall (some hq) (by simp)
        rw [if_neg (Nat.not_lt.mpr hle)]
        exact selectPeerGo_none rest (i + 1) b2 (fun r hr => hall r (by simp [hr]))

theorem selectPeerGo_some : ∀ (reports : List (Option Nat)) (i : Nat)
    (best : Option Nat × Nat) (j h : Nat), selectPeerGo i best reports = (some j, h) →
    best = (some j, h) ∨
      (best.2 < h ∧ ∃ k, reports.get? k = some (some h) ∧ j = i + k)
  | [], _, _, _, _, he => Or.inl he
  | q :: rest, i, best, j, h, he => by
      rw [selectPeerGo] at he
      dsimp only [peerStep] at he
      cases q with
      | none =>
        rcases selectPeerGo_some rest (i + 1) best j h he with h1 | ⟨hlt, k, hk, hj⟩
        · exact Or.inl h1
        · exact Or.inr ⟨hlt, k + 1, by simpa using hk, by omega⟩
      | some hq =>
        dsimp only at he
        by_cases hh : best.2 < hq
        · rw [if_pos hh] at he
          rcases selectPeerGo_some rest (i + 1) (some i, hq) j h he with h1 | ⟨hlt, k, hk, hj⟩
          · rw [Prod.mk.injEq] at h1
            obtain ⟨h1a, h1b⟩ := h1
            injection h1a with h1a
            refine Or.inr ⟨by omega, 0, ?_, by omega⟩
            simp [h1b]
          · simp only at hlt
            exact Or.inr ⟨by omega, k + 1, by simpa using hk, by omega⟩
        · rw [if_neg hh] at he
          rcases selectPeerGo_some rest (i + 1) best j h he with h1 | ⟨hlt, k, hk, hj⟩
          · exact Or.inl h1
          · exact Or.inr ⟨hlt, k + 1, by simpa using hk, by omega⟩

/-- C9: when the peer scan selects (some i, h), peer i reported exactly h,
h is strictly above the local height and no peer reported more; and when no
reachable peer reports a height strictly above the local height, no peer is
selected, sync_with_peer never runs (the conclusion holds for every doSync),
and the round leaves the chain height unchanged. -/
theorem sync_round_spec (doSync : Nat → Nat → Nat → Nat) (local_height : Nat)
    (reports : List (Option Nat)) :
    (∀ i h, sync_select local_height reports = (some i, h) →
       (reports.get? i = some (some h) ∧ local_height < h ∧
        ∀ r ∈ reports, r.getD 0 ≤ h)) ∧
    ((∀ r ∈ reports, r.getD 0 ≤ local_height) →
       (sync_select local_height reports = (none, local_height) ∧
        sync_with_network doSync local_height reports = local_height)) := by
  constructor
  · intro i h hsel
    rw [sync_select] at hsel
    have hmax : ∀ r ∈ reports, r.getD 0 ≤ h := by
      intro r hr
      have hle := selectPeerGo_reported_le reports 0 (none, local_height) r hr
      rw [hsel] at hle
      simpa using hle
    rcases selectPeerGo_some reports 0 (none, local_height) i h hsel with h1 | ⟨hlt, k, hk, hj⟩
    · rw [Prod.mk.injEq] at h1
      exact absurd h1.1 (by simp)
    · refine ⟨?_, by simpa using hlt, hmax⟩
      have hki : k = i := by omega
      rw [← hki]
      exact hk
  · intro hall
    have h1 : sync_select local_height reports = (none, local_height) :=
      selectPeerGo_none reports 0 local_height hall
    refine ⟨h1, ?_⟩
    unfold sync_with_network
    by_cases he : reports.isEmpty
    · rw [if_pos he]
    · rw [if_neg he, h1]

/-- Witness for C9: local height 5, peers reporting 3, a failure, and exactly
5 — none strictly higher — so the round selects no peer and the height stays
5. -/
theorem sync_round_spec_witness :
    (∀ r ∈ ([some 3, none, some 5] : List (Option Nat)), r.getD 0 ≤ 5) ∧
    (sync_select 5 [some 3, none, some 5] = (none, 5) ∧
     sync_with_network (fun _ _ hh => hh) 5 [some 3, none, some 5] = 5) :=
  ⟨by decide, (sync_round_spec (fun _ _ hh => hh) 5 [some 3, none, some 5]).2 (by decide)⟩

/-! ## Transaction hash and the signature field (C2) -/

/-- A concrete 64-byte signature value, standing for the output of the absent
crypto module's Signature::sign. -/
def cx2Sig : List Nat := List.replicate 64 7

set_option maxRecDepth 10000 in
/-- Evidence for C2 (code bug): Transaction::hash digests the bincode
encoding of the whole struct, signature field included, so setting the
signature — which is what sign() does to the struct — changes the hash;
the spec's hash (computed with the signature cleared) of the signed
transaction instead equals the hash of the unsigned one, and the two
serializations differ exactly in the signature field.  The crate's own test
test_transaction_signing_and_verification (sign, then verify, expecting
true) can only pass when the hash ignores the signature, because verify
recomputes the message from the already-signed struct. -/
theorem transaction_hash_covers_signature :
    Transaction.hash (withSignature sampleTx cx2Sig) ≠ Transaction.hash sampleTx ∧
    clearSignature (withSignature sampleTx cx2Sig) = sampleTx ∧
    specTxHash (withSignature sampleTx cx2Sig) = Transaction.hash sampleTx ∧
    txSerialize (withSignature sampleTx cx2Sig) ≠ txSerialize sampleTx := by
  refine ⟨by decide, rfl, rfl, by decide⟩

end OmniTensor
